import Mathlib

set_option maxHeartbeats 1000000

/-!
Shallow embedding of frame_to_video.py (NaturalSortNoPadding).

The comparator core (natural_sort / alphanum_key / convert) is modelled on
List Char.  Python semantics that matter here:

* re.split('([0-9]+)', s) splits on maximal runs of the ASCII digits 0-9,
  keeping the runs; the result alternates non-captured chunks (possibly
  empty, never containing an ASCII digit) with captured digit runs, and
  starts and ends with a non-captured chunk.
* str.isdigit is Unicode-aware: it also accepts non-ASCII decimal digits
  such as the Arabic-Indic block U+0660..U+0669, and int() parses those.
  pyIsDigitChar models the ASCII digits plus that block as a faithful
  fragment (Python accepts further blocks, which behave the same way here;
  it also accepts characters such as superscripts on which int() raises,
  outside this fragment).
* str.lower is modelled on the ASCII range; non-ASCII characters are kept
  unchanged.  No theorem below depends on how a non-ASCII letter lowers.
* Comparing an int with a str raises TypeError; list comparison is
  element-wise and raises exactly when the first position whose elements
  are not equal holds an int on one side and a str on the other.  This is
  modelled by Except-valued comparators where error stands for TypeError.
-/

def isAsciiDigit (c : Char) : Bool := 48 ≤ c.toNat && c.toNat ≤ 57

/-- Fragment of Python's Unicode-aware per-character digit test: the ASCII
digits and the Arabic-Indic digits U+0660..U+0669. -/
def pyIsDigitChar (c : Char) : Bool :=
  isAsciiDigit c || (1632 ≤ c.toNat && c.toNat ≤ 1641)

def pyDigitVal (c : Char) : Nat :=
  if isAsciiDigit c then c.toNat - 48 else c.toNat - 1632

/-- ASCII fragment of Python str.lower, applied character-wise. -/
def pyLowerChar (c : Char) : Char :=
  if 65 ≤ c.toNat && c.toNat ≤ 90 then Char.ofNat (c.toNat + 32) else c

/-- Python str.isdigit: nonempty and every character is a digit. -/
def pyIsDigitStr (l : List Char) : Bool := !l.isEmpty && l.all pyIsDigitChar

/-- Value of int() on a pure digit run. -/
def pyIntVal (l : List Char) : Nat := l.foldl (fun a c => 10 * a + pyDigitVal c) 0

/-- Comparison of natural numbers, as Python compares ints. -/
def cmpNat (a b : Nat) : Ordering :=
  if a < b then .lt else if a = b then .eq else .gt

/-- Comparison of characters by code point, as Python compares str of length 1. -/
def cmpChar (a b : Char) : Ordering := cmpNat a.toNat b.toNat

/-- Lexicographic comparison of character lists, as Python compares str. -/
def cmpCharList : List Char → List Char → Ordering
  | [], [] => .eq
  | [], _ :: _ => .lt
  | _ :: _, [] => .gt
  | a :: as, b :: bs =>
    match cmpChar a b with
    | .eq => cmpCharList as bs
    | .lt => .lt
    | .gt => .gt

/-- A token of an alphanum key: either a lowered text chunk or a parsed int. -/
inductive Tok where
  | str : List Char → Tok
  | num : Nat → Tok
  deriving DecidableEq

def Tok.isStr : Tok → Bool
  | .str _ => true
  | .num _ => false

/-- Python comparison of two key elements; cross-type int-vs-str raises
TypeError, modelled as error. -/
def pyCompTok : Tok → Tok → Except Unit Ordering
  | .str a, .str b => .ok (cmpCharList a b)
  | .num a, .num b => .ok (cmpNat a b)
  | _, _ => .error ()

/-- Python comparison of two keys (lists): element-wise, a strict prefix is
smaller, and the first position holding an int on one side and a str on the
other raises TypeError. -/
def pyCompKey : List Tok → List Tok → Except Unit Ordering
  | [], [] => .ok .eq
  | [], _ :: _ => .ok .lt
  | _ :: _, [] => .ok .gt
  | a :: as, b :: bs =>
    match pyCompTok a b with
    | .error e => .error e
    | .ok .eq => pyCompKey as bs
    | .ok .lt => .ok .lt
    | .ok .gt => .ok .gt

/-- Prepend a non-digit character to a chunk list (helper for splitDigits). -/
def consText (c : Char) : List (List Char) → List (List Char)
  | chunk :: tail => (c :: chunk) :: tail
  | [] => [[c]]

/-- Prepend an ASCII digit character to a chunk list (helper for splitDigits). -/
def consDigit (c : Char) : List (List Char) → List (List Char)
  | [] :: d :: tail => [] :: (c :: d) :: tail
  | r => [] :: [c] :: r

/-- Model of re.split('([0-9]+)', s): alternating non-captured chunks and
captured maximal ASCII-digit runs, starting and ending with a (possibly
empty) non-captured chunk. -/
def splitDigits : List Char → List (List Char)
  | [] => [[]]
  | c :: rest =>
    if isAsciiDigit c then consDigit c (splitDigits rest)
    else consText c (splitDigits rest)

/-- Model of the inner convert of natural_sort:
int(text) if text.isdigit() else text.lower(). -/
def convert (l : List Char) : Tok :=
  if pyIsDigitStr l then .num (pyIntVal l) else .str (l.map pyLowerChar)

/-- Model of alphanum_key: convert applied to every chunk of re.split. -/
def alphanum_key (l : List Char) : List Tok := (splitDigits l).map convert

/-- Comparison of two strings through their alphanum keys, as Python's
sorted(..., key=alphanum_key) compares list elements. -/
def natCompare (a b : List Char) : Except Unit Ordering :=
  pyCompKey (alphanum_key a) (alphanum_key b)

def exceptOk {ε α : Type} : Except ε α → Bool
  | .ok _ => true
  | .error _ => false

instance {ε α : Type} [DecidableEq ε] [DecidableEq α] : DecidableEq (Except ε α) := fun x y =>
  match x, y with
  | .ok a, .ok b =>
    if h : a = b then .isTrue (by rw [h]) else .isFalse (by intro hc; cases hc; exact h rfl)
  | .error a, .error b =>
    if h : a = b then .isTrue (by rw [h]) else .isFalse (by intro hc; cases hc; exact h rfl)
  | .ok _, .error _ => .isFalse (by intro hc; cases hc)
  | .error _, .ok _ => .isFalse (by intro hc; cases hc)

/-- Strict key order used while sorting. -/
def natLt (a b : List Char) : Bool :=
  match natCompare a b with
  | .ok .lt => true
  | _ => false

/-- Stable insertion of a into an already sorted list: a goes in front of the
first element b that is not strictly below a, hence in front of elements with
an equal key, preserving input order among equals as Python's stable sort does. -/
def insertFrame (a : List Char) : List (List Char) → List (List Char)
  | [] => [a]
  | b :: bs => if natLt b a then b :: insertFrame a bs else a :: b :: bs

/-- Stable sort by alphanum key. -/
def insertionSortNat : List (List Char) → List (List Char)
  | [] => []
  | a :: rest => insertFrame a (insertionSortNat rest)

/-- Every ordered pair of keys of elements of l compares without TypeError. -/
def allComparable (l : List (List Char)) : Bool :=
  l.all fun a => l.all fun b => exceptOk (natCompare a b)

/-- Model of natural_sort(file_list) = sorted(file_list, key=alphanum_key).
Python's Timsort raises TypeError exactly when it performs a comparison of
incomparable keys; which pairs it compares is an internal detail, so this
embedding errors when some pair of keys of the input is incomparable.  On
fully comparable inputs (every theorem below that needs the ok branch assumes
this) and on the two-element failing inputs exhibited below (where any sort
must compare the unique pair) it agrees exactly with Python: Python's sorted
is specified to be stable and ordered by the key comparison, which determines
its output uniquely. -/
def natural_sort (l : List (List Char)) : Except Unit (List (List Char)) :=
  if allComparable l then .ok (insertionSortNat l) else .error ()

/-!
Orchestration layer: create_video_from_frames and process_single_directory.

The filesystem and the encoder subprocess are abstracted into an Env record:
listDir is os.listdir (the order the OS returns), isDir is os.path.isdir on a
full path, and ffmpeg is subprocess.run on the ffmpeg command line, returning
either the returncode of a completed process (ok) or a raised exception such
as FileNotFoundError (error, with the message).  The transient frame-list
files are the only files the script itself writes, so the tracked filesystem
state FS maps their paths to the written edit list; prints are not modelled.
Exceptions are PyErr values threaded as Except; all of them are subclasses of
Exception in Python, hence caught by the except clause of the recursive loop.
Paths are joined POSIX style and 1.0/fps is modelled as a rational (the claims
touch only whether the division is reached, never float rounding).
-/

inductive PyErr where
  | zeroDivision : PyErr
  | typeError : PyErr
  | exc : String → PyErr
  deriving DecidableEq

structure FfmpegCall where
  listFile : String
  resolution : String
  fps : Int
  outPath : String

structure Env where
  listDir : String → List String
  isDir : String → Bool
  ffmpeg : FfmpegCall → Except String Int

/-- Transient files the script wrote: path and the (frame path, duration)
edit list serialized into it. -/
abbrev FS := List (String × List (String × Rat))

def pathJoin (a b : String) : String := a ++ "/" ++ b

def fileExists (p : String) (fs : FS) : Bool := fs.any fun e => e.1 == p

def removeFile (p : String) (fs : FS) : FS := fs.filter fun e => e.1 != p

/-- Model of s.rstrip("/\\"). -/
def rstripSlashes (s : String) : String :=
  String.mk ((s.toList.reverse.dropWhile fun c => c == '/' || c == '\\').reverse)

/-- Model of posix os.path.basename: the part after the last slash. -/
def basename (s : String) : String :=
  String.mk ((s.toList.reverse.takeWhile fun c => !(c == '/')).reverse)

/-- The characters of the literal ".mp4". -/
def mp4 : List Char := ['.', 'm', 'p', '4']

/-- Fuel-driven helper for stripMp4; fuel bounds the number of steps, and each
step consumes at least one character, so fuel = length is always enough. -/
def stripMp4Aux : Nat → List Char → List Char
  | 0, l => l
  | _ + 1, [] => []
  | fuel + 1, c :: rest =>
    if mp4.isPrefixOf (c :: rest) then stripMp4Aux fuel (rest.drop 3)
    else c :: stripMp4Aux fuel rest

/-- Model of name.replace('.mp4', ''): every non-overlapping occurrence of
".mp4" anywhere in the string is removed, scanning left to right. -/
def stripMp4 (l : List Char) : List Char := stripMp4Aux l.length l

def pythonReplaceMp4 (s : String) : String := String.mk (stripMp4 s.toList)

/-- Name choice of process_single_directory: `if not output_filename:` is
taken for None and for an empty string, falling back to the basename of the
frames path with trailing slashes stripped. -/
def chosenName (frames_path : String) : Option String → String
  | none => basename (rstripSlashes frames_path)
  | some s => if s = "" then basename (rstripSlashes frames_path) else s

/-- Base name after the .mp4 removal, as computed at the top of
process_single_directory. -/
def resolveBaseName (frames_path : String) (nm : Option String) : String :=
  pythonReplaceMp4 (chosenName frames_path nm)

/-- Path of the transient frame-list file of one process_single_directory call. -/
def tempListPath (output_path frames_path : String) (nm : Option String) : String :=
  pathJoin output_path (resolveBaseName frames_path nm ++ "_frames.txt")

/-- f.lower().endswith(('.png', '.jpg', '.jpeg')). -/
def isImageFile (f : String) : Bool :=
  let lf := f.toList.map pyLowerChar
  (String.toList ".png").isSuffixOf lf || (String.toList ".jpg").isSuffixOf lf ||
    (String.toList ".jpeg").isSuffixOf lf

/-- Model of process_single_directory.  Returns the filesystem after the call
and its outcome: ok when the function returns (also after a failed encoder,
which is only printed), or the propagated exception. -/
def process_single_directory (env : Env) (frames_path output_path : String)
    (output_filename : Option String) (fps : Int) (resolution : String) (fs : FS) :
    FS × Except PyErr Unit :=
  let base_name := resolveBaseName frames_path output_filename
  let output_video_path := pathJoin output_path (base_name ++ ".mp4")
  let frame_files := (env.listDir frames_path).filter isImageFile
  if frame_files.isEmpty then (fs, .ok ())
  else
    match natural_sort (frame_files.map String.toList) with
    | .error _ => (fs, .error .typeError)
    | .ok sorted_frames =>
      let list_file_path := pathJoin output_path (base_name ++ "_frames.txt")
      if fps = 0 then (fs, .error .zeroDivision)
      else
        let frame_duration : Rat := 1 / (fps : Rat)
        let entries := sorted_frames.map fun f =>
          (pathJoin frames_path (String.mk f), frame_duration)
        let fs1 := (list_file_path, entries) :: removeFile list_file_path fs
        match env.ffmpeg ⟨list_file_path, resolution, fps, output_video_path⟩ with
        | .error msg => (fs1, .error (.exc msg))
        | .ok _ => (removeFile list_file_path fs1, .ok ())

/-- The folder loop of the recursive branch: each folder is processed inside
try/except Exception, so an error is recorded and the loop continues. -/
def processFolders (env : Env) (frames_path output_path : String) (fps : Int)
    (resolution : String) : List String → FS → FS × List (String × Except PyErr Unit)
  | [], fs => (fs, [])
  | f :: rest, fs =>
    let r := process_single_directory env (pathJoin frames_path f) output_path
      (some f) fps resolution fs
    let t := processFolders env frames_path output_path fps resolution rest r.1
    (t.1, (f, r.2) :: t.2)

structure RunResult where
  fs : FS
  outcome : Except PyErr Unit
  folderTrace : List (String × Except PyErr Unit)

/-- Model of create_video_from_frames.  folderTrace records, in processing
order, each subdirectory the recursive loop handled together with the outcome
of its process_single_directory call (ok, or the caught exception). -/
def create_video_from_frames (env : Env) (frames_path output_path : String)
    (output_filename : Option String) (fps : Int) (resolution : String)
    (recursive : Bool) (fs : FS) : RunResult :=
  if recursive then
    let folders := (env.listDir frames_path).filter fun f =>
      env.isDir (pathJoin frames_path f)
    if folders.isEmpty then
      let r := process_single_directory env frames_path output_path none fps resolution fs
      ⟨r.1, r.2, []⟩
    else
      let t := processFolders env frames_path output_path fps resolution folders fs
      ⟨t.1, .ok (), t.2⟩
  else
    let r := process_single_directory env frames_path output_path output_filename
      fps resolution fs
    ⟨r.1, r.2, []⟩

/-! Concrete environments used to evaluate the model at specific inputs. -/

/-- A flat directory of three unpadded frames; the encoder always succeeds. -/
def envFramesOk : Env where
  listDir := fun p => if p = "root" then ["b.png", "a10.png", "a9.png"] else []
  isDir := fun _ => false
  ffmpeg := fun _ => .ok 0

/-- A directory with no image files at all. -/
def envEmptyDir : Env where
  listDir := fun _ => []
  isDir := fun _ => false
  ffmpeg := fun _ => .ok 0

/-- One frame present, but subprocess.run itself raises (for example ffmpeg
is not installed: FileNotFoundError). -/
def envFfmpegRaise : Env where
  listDir := fun p => if p = "root" then ["a.png"] else []
  isDir := fun _ => false
  ffmpeg := fun _ => .error "FileNotFoundError: ffmpeg"

/-- Root with three shot subdirectories, listed by the OS as
shot10, shot2, shotA; each subdirectory holds one frame. -/
def envShots1 : Env where
  listDir := fun p => if p = "root" then ["shot10", "shot2", "shotA"] else ["a.png"]
  isDir := fun p => p == "root/shot10" || p == "root/shot2" || p == "root/shotA"
  ffmpeg := fun _ => .ok 0

/-- The same three shot subdirectories, listed by the OS in another order. -/
def envShots2 : Env where
  listDir := fun p => if p = "root" then ["shotA", "shot10", "shot2"] else ["a.png"]
  isDir := fun p => p == "root/shot10" || p == "root/shot2" || p == "root/shotA"
  ffmpeg := fun _ => .ok 0

/-- Two subdirectories where processing the first one raises inside the loop
(subprocess.run fails for its output) and the second one succeeds. -/
def envMixed : Env where
  listDir := fun p =>
    if p = "root" then ["bad", "good"]
    else if p = "root/bad" then ["x.png"]
    else if p = "root/good" then ["y.png"]
    else []
  isDir := fun p => p == "root/bad" || p == "root/good"
  ffmpeg := fun c => if c.outPath == "out/bad.mp4" then .error "boom" else .ok 0

/-- Swap of an Except-valued ordering, error preserved. -/
def ordSwapE : Except Unit Ordering → Except Unit Ordering
  | .ok o => .ok o.swap
  | .error e => .error e

/-! Laws of the elementary comparators. -/

theorem cmpNat_lt_iff (a b : Nat) : cmpNat a b = .lt ↔ a < b := by
  unfold cmpNat
  split
  · simp; omega
  · split <;> simp <;> omega

theorem cmpNat_eq_iff (a b : Nat) : cmpNat a b = .eq ↔ a = b := by
  unfold cmpNat
  split
  · simp; omega
  · split <;> simp <;> omega

theorem cmpNat_gt_iff (a b : Nat) : cmpNat a b = .gt ↔ b < a := by
  unfold cmpNat
  split
  · simp; omega
  · split <;> simp <;> omega

theorem cmpNat_self (a : Nat) : cmpNat a a = .eq := (cmpNat_eq_iff a a).mpr rfl

theorem cmpNat_swap (a b : Nat) : cmpNat a b = (cmpNat b a).swap := by
  rcases Nat.lt_trichotomy a b with h | h | h
  · rw [(cmpNat_lt_iff a b).mpr h, (cmpNat_gt_iff b a).mpr h]; rfl
  · rw [(cmpNat_eq_iff a b).mpr h, (cmpNat_eq_iff b a).mpr h.symm]; rfl
  · rw [(cmpNat_gt_iff a b).mpr h, (cmpNat_lt_iff b a).mpr h]; rfl

theorem cmpChar_self (a : Char) : cmpChar a a = .eq := cmpNat_self a.toNat

theorem cmpChar_swap (a b : Char) : cmpChar a b = (cmpChar b a).swap :=
  cmpNat_swap a.toNat b.toNat

theorem cmpChar_eq_toNat {a b : Char} (h : cmpChar a b = .eq) : a.toNat = b.toNat :=
  (cmpNat_eq_iff a.toNat b.toNat).mp h

theorem cmpChar_congr_left {a b : Char} (h : cmpChar a b = .eq) (c : Char) :
    cmpChar b c = cmpChar a c := by
  unfold cmpChar
  rw [cmpChar_eq_toNat h]

theorem cmpChar_congr_right {b c : Char} (h : cmpChar b c = .eq) (a : Char) :
    cmpChar a b = cmpChar a c := by
  unfold cmpChar
  rw [cmpChar_eq_toNat h]

theorem cmpChar_trans_lt {a b c : Char} (h1 : cmpChar a b = .lt) (h2 : cmpChar b c = .lt) :
    cmpChar a c = .lt := by
  have g1 := (cmpNat_lt_iff a.toNat b.toNat).mp h1
  have g2 := (cmpNat_lt_iff b.toNat c.toNat).mp h2
  exact (cmpNat_lt_iff a.toNat c.toNat).mpr (Nat.lt_trans g1 g2)

theorem cmpCharList_self (a : List Char) : cmpCharList a a = .eq := by
  induction a with
  | nil => rfl
  | cons x xs ih => simp [cmpCharList, cmpChar_self, ih]

theorem cmpCharList_swap (a b : List Char) : cmpCharList a b = (cmpCharList b a).swap := by
  induction a generalizing b with
  | nil => cases b <;> rfl
  | cons x xs ih =>
    cases b with
    | nil => rfl
    | cons y ys =>
      simp only [cmpCharList]
      rw [cmpChar_swap x y]
      cases cmpChar y x <;> simp [Ordering.swap, ih ys]

theorem cmpCharList_congr_left {a b : List Char} (h : cmpCharList a b = .eq)
    (c : List Char) : cmpCharList b c = cmpCharList a c := by
  induction a generalizing b c with
  | nil =>
    cases b with
    | nil => rfl
    | cons y ys => simp [cmpCharList] at h
  | cons x xs ih =>
    cases b with
    | nil => simp [cmpCharList] at h
    | cons y ys =>
      simp only [cmpCharList] at h
      rcases hxy : cmpChar x y with _ | _ | _ <;> rw [hxy] at h
      · exact absurd h (by simp)
      · cases c with
        | nil => rfl
        | cons z zs =>
          simp only [cmpCharList]
          rw [cmpChar_congr_left hxy z]
          cases cmpChar x z <;> simp [ih h zs]
      · exact absurd h (by simp)

theorem cmpCharList_congr_right {b c : List Char} (h : cmpCharList b c = .eq)
    (a : List Char) : cmpCharList a b = cmpCharList a c := by
  rw [cmpCharList_swap a b, cmpCharList_swap a c, cmpCharList_congr_left h a]

theorem cmpCharList_trans_lt {a b c : List Char} (h1 : cmpCharList a b = .lt)
    (h2 : cmpCharList b c = .lt) : cmpCharList a c = .lt := by
  induction a generalizing b c with
  | nil =>
    cases b with
    | nil => simp [cmpCharList] at h1
    | cons y ys =>
      cases c with
      | nil => simp [cmpCharList] at h2
      | cons z zs => rfl
  | cons x xs ih =>
    cases b with
    | nil => simp [cmpCharList] at h1
    | cons y ys =>
      cases c with
      | nil => simp [cmpCharList] at h2
      | cons z zs =>
        simp only [cmpCharList] at h1 h2 ⊢
        rcases hxy : cmpChar x y with _ | _ | _ <;> rw [hxy] at h1
        · rcases hyz : cmpChar y z with _ | _ | _ <;> rw [hyz] at h2
          · rw [cmpChar_trans_lt hxy hyz]
          · rw [← cmpChar_congr_right hyz x, hxy]
          · exact absurd h2 (by simp)
        · rcases hyz : cmpChar y z with _ | _ | _ <;> rw [hyz] at h2
          · rw [← cmpChar_congr_left hxy z, hyz]
          · rw [← cmpChar_congr_left hxy z, hyz]
            exact ih h1 h2
          · exact absurd h2 (by simp)
        · exact absurd h1 (by simp)

/-! Laws of the token comparator. -/

theorem pyCompTok_self (a : Tok) : pyCompTok a a = .ok .eq := by
  cases a with
  | str s => simp [pyCompTok, cmpCharList_self]
  | num n => simp [pyCompTok, cmpNat_self]

theorem pyCompTok_swap (a b : Tok) : pyCompTok a b = ordSwapE (pyCompTok b a) := by
  cases a <;> cases b <;> simp [pyCompTok, ordSwapE]
  · exact cmpCharList_swap _ _
  · exact cmpNat_swap _ _

theorem pyCompTok_congr_left {a b : Tok} (h : pyCompTok a b = .ok .eq) (c : Tok) :
    pyCompTok b c = pyCompTok a c := by
  cases a <;> cases b <;> simp [pyCompTok] at h ⊢
  · cases c with
    | str s => simp [pyCompTok, cmpCharList_congr_left h]
    | num n => simp [pyCompTok]
  · rw [(cmpNat_eq_iff _ _).mp h]

theorem pyCompTok_congr_right {b c : Tok} (h : pyCompTok b c = .ok .eq) (a : Tok) :
    pyCompTok a b = pyCompTok a c := by
  rw [pyCompTok_swap a b, pyCompTok_swap a c, pyCompTok_congr_left h a]

theorem pyCompTok_trans_lt {a b c : Tok} (h1 : pyCompTok a b = .ok .lt)
    (h2 : pyCompTok b c = .ok .lt) : pyCompTok a c = .ok .lt := by
  cases a <;> cases b <;> simp [pyCompTok] at h1 <;> cases c <;> simp [pyCompTok] at h2 ⊢
  · exact cmpCharList_trans_lt h1 h2
  · have g1 := (cmpNat_lt_iff _ _).mp h1
    have g2 := (cmpNat_lt_iff _ _).mp h2
    exact (cmpNat_lt_iff _ _).mpr (Nat.lt_trans g1 g2)

/-! Laws of the key comparator. -/

theorem pyCompKey_self (k : List Tok) : pyCompKey k k = .ok .eq := by
  induction k with
  | nil => rfl
  | cons a as ih => simp [pyCompKey, pyCompTok_self, ih]

theorem pyCompKey_swap (k1 k2 : List Tok) : pyCompKey k1 k2 = ordSwapE (pyCompKey k2 k1) := by
  induction k1 generalizing k2 with
  | nil => cases k2 <;> rfl
  | cons a as ih =>
    cases k2 with
    | nil => rfl
    | cons b bs =>
      simp only [pyCompKey]
      rw [pyCompTok_swap a b]
      rcases pyCompTok b a with e | o
      · rfl
      · cases o <;> simp [ordSwapE, Ordering.swap, ih bs]

theorem pyCompKey_congr_left {k1 k2 : List Tok} (h : pyCompKey k1 k2 = .ok .eq)
    (k3 : List Tok) : pyCompKey k2 k3 = pyCompKey k1 k3 := by
  induction k1 generalizing k2 k3 with
  | nil =>
    cases k2 with
    | nil => rfl
    | cons b bs => simp [pyCompKey] at h
  | cons a as ih =>
    cases k2 with
    | nil => simp [pyCompKey] at h
    | cons b bs =>
      simp only [pyCompKey] at h
      rcases hab : pyCompTok a b with e | o <;> rw [hab] at h
      · exact absurd h (by simp)
      · cases o with
        | eq =>
          cases k3 with
          | nil => rfl
          | cons c cs =>
            simp only [pyCompKey]
            rw [pyCompTok_congr_left hab c]
            rcases pyCompTok a c with e | o2
            · rfl
            · cases o2 <;> simp [ih h cs]
        | lt => exact absurd h (by simp)
        | gt => exact absurd h (by simp)

theorem pyCompKey_congr_right {k2 k3 : List Tok} (h : pyCompKey k2 k3 = .ok .eq)
    (k1 : List Tok) : pyCompKey k1 k2 = pyCompKey k1 k3 := by
  rw [pyCompKey_swap k1 k2, pyCompKey_swap k1 k3, pyCompKey_congr_left h k1]

theorem pyCompKey_trans_lt {k1 k2 k3 : List Tok} (h1 : pyCompKey k1 k2 = .ok .lt)
    (h2 : pyCompKey k2 k3 = .ok .lt) : pyCompKey k1 k3 = .ok .lt := by
  induction k1 generalizing k2 k3 with
  | nil =>
    cases k2 with
    | nil => simp [pyCompKey] at h1
    | cons b bs =>
      cases k3 with
      | nil => simp [pyCompKey] at h2
      | cons c cs => rfl
  | cons a as ih =>
    cases k2 with
    | nil => simp [pyCompKey] at h1
    | cons b bs =>
      cases k3 with
      | nil => simp [pyCompKey] at h2
      | cons c cs =>
        simp only [pyCompKey] at h1 h2 ⊢
        rcases hab : pyCompTok a b with e | o <;> rw [hab] at h1
        · exact absurd h1 (by simp)
        · rcases hbc : pyCompTok b c with e2 | o2 <;> rw [hbc] at h2
          · exact absurd h2 (by simp)
          · cases o with
            | eq =>
              cases o2 with
              | eq =>
                have hac : pyCompTok a c = .ok .eq := by
                  rw [← pyCompTok_congr_left hab c, hbc]
                rw [hac]
                exact ih h1 h2
              | lt =>
                have hac : pyCompTok a c = .ok .lt := by
                  rw [← pyCompTok_congr_left hab c, hbc]
                rw [hac]
              | gt => exact absurd h2 (by simp)
            | lt =>
              cases o2 with
              | eq =>
                have hac : pyCompTok a c = .ok .lt := by
                  rw [← pyCompTok_congr_right hbc a, hab]
                rw [hac]
              | lt => rw [pyCompTok_trans_lt hab hbc]
              | gt => exact absurd h2 (by simp)
            | gt => exact absurd h1 (by simp)

/-! Structure of the chunks produced by splitDigits. -/

/-- Shape invariant of a re.split('([0-9]+)') result: alternating non-digit
chunks (even positions, possibly empty) and nonempty ASCII-digit runs (odd
positions), starting and ending with a non-digit chunk. -/
inductive ChunksShape : List (List Char) → Prop where
  | last (t : List Char) (ht : ∀ c ∈ t, isAsciiDigit c = false) : ChunksShape [t]
  | cons (t d : List Char) (rest : List (List Char))
      (ht : ∀ c ∈ t, isAsciiDigit c = false) (hd : d ≠ [])
      (hd2 : ∀ c ∈ d, isAsciiDigit c = true) (hrest : ChunksShape rest) :
      ChunksShape (t :: d :: rest)

theorem chunksShape_consText {r : List (List Char)} (c : Char)
    (hc : isAsciiDigit c = false) (h : ChunksShape r) : ChunksShape (consText c r) := by
  cases h with
  | last t ht =>
    refine ChunksShape.last (c :: t) ?_
    intro x hx
    rcases List.mem_cons.mp hx with h1 | h1
    · rw [h1]; exact hc
    · exact ht x h1
  | cons t d rest ht hd hd2 hrest =>
    refine ChunksShape.cons (c :: t) d rest ?_ hd hd2 hrest
    intro x hx
    rcases List.mem_cons.mp hx with h1 | h1
    · rw [h1]; exact hc
    · exact ht x h1


theorem consDigit_single (c : Char) (t : List Char) :
    consDigit c [t] = [] :: [c] :: [t] := by
  cases t <;> rfl

theorem consDigit_merge (c : Char) (d : List Char) (tail : List (List Char)) :
    consDigit c ([] :: d :: tail) = [] :: (c :: d) :: tail := rfl

theorem consDigit_text_head (c t0 : Char) (ts : List Char) (tail : List (List Char)) :
    consDigit c ((t0 :: ts) :: tail) = [] :: [c] :: (t0 :: ts) :: tail := by
  cases tail <;> rfl

theorem chunksShape_consDigit {r : List (List Char)} (c : Char)
    (hc : isAsciiDigit c = true) (h : ChunksShape r) : ChunksShape (consDigit c r) := by
  have hcv : ∀ x ∈ [c], isAsciiDigit x = true := by
    intro x hx
    rcases List.mem_singleton.mp hx with h1
    rw [h1]; exact hc
  cases h with
  | last t ht =>
    rw [consDigit_single]
    exact ChunksShape.cons [] [c] [t] (by intro x hx; cases hx) (by simp) hcv
      (ChunksShape.last t ht)
  | cons t d rest ht hd hd2 hrest =>
    cases t with
    | nil =>
      rw [consDigit_merge]
      refine ChunksShape.cons [] (c :: d) rest (by intro x hx; cases hx) (by simp) ?_ hrest
      intro x hx
      rcases List.mem_cons.mp hx with h1 | h1
      · rw [h1]; exact hc
      · exact hd2 x h1
    | cons t0 ts =>
      rw [consDigit_text_head]
      exact ChunksShape.cons [] [c] ((t0 :: ts) :: d :: rest) (by intro x hx; cases hx)
        (by simp) hcv (ChunksShape.cons (t0 :: ts) d rest ht hd hd2 hrest)

theorem chunksShape_splitDigits (l : List Char) : ChunksShape (splitDigits l) := by
  induction l with
  | nil => exact ChunksShape.last [] (by intro x hx; cases hx)
  | cons c rest ih =>
    simp only [splitDigits]
    rcases hc : isAsciiDigit c with hf | ht
    · simp only [Bool.false_eq_true, if_false]
      exact chunksShape_consText c hc ih
    · simp only [if_true]
      exact chunksShape_consDigit c hc ih

/-- A character occurs in some chunk of a chunk list. -/
def chunkMem (x : Char) (r : List (List Char)) : Prop := ∃ ch ∈ r, x ∈ ch

theorem chunkMem_consText {x c : Char} {r : List (List Char)}
    (h : chunkMem x (consText c r)) : x = c ∨ chunkMem x r := by
  cases r with
  | nil =>
    rcases h with ⟨ch, hch, hx⟩
    rcases List.mem_singleton.mp hch with h1
    rw [h1] at hx
    exact Or.inl (List.mem_singleton.mp hx)
  | cons ch0 tl =>
    rcases h with ⟨ch, hch, hx⟩
    rcases List.mem_cons.mp hch with h1 | h1
    · rw [h1] at hx
      rcases List.mem_cons.mp hx with h2 | h2
      · exact Or.inl h2
      · exact Or.inr ⟨ch0, List.mem_cons_self ch0 tl, h2⟩
    · exact Or.inr ⟨ch, List.mem_cons_of_mem ch0 h1, hx⟩

theorem chunkMem_consDigit {x c : Char} {r : List (List Char)}
    (h : chunkMem x (consDigit c r)) : x = c ∨ chunkMem x r := by
  rcases r with _ | ⟨ch0, tl⟩
  · rcases h with ⟨ch, hch, hx⟩
    rcases List.mem_cons.mp hch with h1 | h1
    · rw [h1] at hx; cases hx
    · rcases List.mem_cons.mp h1 with h2 | h2
      · rw [h2] at hx
        exact Or.inl (List.mem_singleton.mp hx)
      · cases h2
  · rcases ch0 with _ | ⟨y, ys⟩
    · rcases tl with _ | ⟨d, tl2⟩
      · rcases h with ⟨ch, hch, hx⟩
        rcases List.mem_cons.mp hch with h1 | h1
        · rw [h1] at hx; cases hx
        · rcases List.mem_cons.mp h1 with h2 | h2
          · rw [h2] at hx
            exact Or.inl (List.mem_singleton.mp hx)
          · rcases List.mem_singleton.mp h2 with h3
            rw [h3] at hx; cases hx
      · rw [consDigit_merge] at h
        rcases h with ⟨ch, hch, hx⟩
        rcases List.mem_cons.mp hch with h1 | h1
        · rw [h1] at hx; cases hx
        · rcases List.mem_cons.mp h1 with h2 | h2
          · rw [h2] at hx
            rcases List.mem_cons.mp hx with h3 | h3
            · exact Or.inl h3
            · exact Or.inr ⟨d, List.mem_cons_of_mem [] (List.mem_cons_self d tl2), h3⟩
          · exact Or.inr ⟨ch, List.mem_cons_of_mem [] (List.mem_cons_of_mem d h2), hx⟩
    · rw [consDigit_text_head] at h
      rcases h with ⟨ch, hch, hx⟩
      rcases List.mem_cons.mp hch with h1 | h1
      · rw [h1] at hx; cases hx
      · rcases List.mem_cons.mp h1 with h2 | h2
        · rw [h2] at hx
          exact Or.inl (List.mem_singleton.mp hx)
        · exact Or.inr ⟨ch, h2, hx⟩

theorem splitDigits_chars_subset {l : List Char} {x : Char}
    (h : chunkMem x (splitDigits l)) : x ∈ l := by
  induction l with
  | nil =>
    rcases h with ⟨ch, hch, hx⟩
    rcases List.mem_singleton.mp hch with h1
    rw [h1] at hx
    cases hx
  | cons c rest ih =>
    simp only [splitDigits] at h
    by_cases hc : isAsciiDigit c = true
    · rw [if_pos hc] at h
      rcases chunkMem_consDigit h with h1 | h1
      · rw [h1]; exact List.mem_cons_self c rest
      · exact List.mem_cons_of_mem c (ih h1)
    · rw [if_neg hc] at h
      rcases chunkMem_consText h with h1 | h1
      · rw [h1]; exact List.mem_cons_self c rest
      · exact List.mem_cons_of_mem c (ih h1)

/-! Shape of alphanum keys and totality of their comparison. -/

/-- Alternating shape of an alphanum key: str tokens at even positions, num
tokens at odd positions, starting and ending with a str token. -/
inductive KeyShape : List Tok → Prop where
  | last (s : List Char) : KeyShape [.str s]
  | cons (s : List Char) (n : Nat) (rest : List Tok) (h : KeyShape rest) :
      KeyShape (.str s :: .num n :: rest)

/-- Every character of l that Python counts as a digit is an ASCII digit;
such strings are exactly the ones whose keys keep the str/int alternation. -/
def noExoticDigits (l : List Char) : Prop :=
  ∀ c ∈ l, pyIsDigitChar c = true → isAsciiDigit c = true

instance (l : List Char) : Decidable (noExoticDigits l) := by
  unfold noExoticDigits
  infer_instance

theorem isAsciiDigit_pyIsDigitChar {c : Char} (h : isAsciiDigit c = true) :
    pyIsDigitChar c = true := by
  unfold pyIsDigitChar
  rw [h]
  rfl

theorem convert_text {t : List Char} (ht : ∀ c ∈ t, isAsciiDigit c = false)
    (hexo : ∀ c ∈ t, pyIsDigitChar c = true → isAsciiDigit c = true) :
    convert t = .str (t.map pyLowerChar) := by
  unfold convert
  cases t with
  | nil => rfl
  | cons c cs =>
    have hdig : pyIsDigitStr (c :: cs) = false := by
      unfold pyIsDigitStr
      by_cases hpy : pyIsDigitChar c = true
      · have := hexo c (List.mem_cons_self c cs) hpy
        rw [ht c (List.mem_cons_self c cs)] at this
        cases this
      · simp only [List.all_cons, Bool.and_eq_false_iff]
        right
        left
        exact (Bool.not_eq_true _).mp hpy
    rw [hdig]
    rfl

theorem convert_digits {d : List Char} (hd : d ≠ [])
    (hd2 : ∀ c ∈ d, isAsciiDigit c = true) : convert d = .num (pyIntVal d) := by
  unfold convert
  have hdig : pyIsDigitStr d = true := by
    unfold pyIsDigitStr
    cases d with
    | nil => exact absurd rfl hd
    | cons c cs =>
      simp only [List.isEmpty_cons, Bool.not_false, Bool.true_and, List.all_eq_true]
      intro x hx
      exact isAsciiDigit_pyIsDigitChar (hd2 x hx)
  rw [hdig]
  rfl

theorem keyShape_of_chunks {chunks : List (List Char)} (h : ChunksShape chunks)
    (hexo : ∀ ch ∈ chunks, ∀ c ∈ ch, pyIsDigitChar c = true → isAsciiDigit c = true) :
    KeyShape (chunks.map convert) := by
  induction h with
  | last t ht =>
    simp only [List.map_cons, List.map_nil]
    rw [convert_text ht (hexo t (List.mem_singleton.mpr rfl))]
    exact KeyShape.last _
  | cons t d rest ht hd hd2 hrest ih =>
    simp only [List.map_cons]
    rw [convert_text ht (hexo t (List.mem_cons_self _ _)),
      convert_digits hd hd2]
    refine KeyShape.cons _ _ _ ?_
    have := ih ?_
    · simpa using this
    · intro ch hch c hc
      exact hexo ch (List.mem_cons_of_mem t (List.mem_cons_of_mem d hch)) c hc

theorem keyShape_alphanum_key {l : List Char} (h : noExoticDigits l) :
    KeyShape (alphanum_key l) := by
  unfold alphanum_key
  refine keyShape_of_chunks (chunksShape_splitDigits l) ?_
  intro ch hch c hc hpy
  exact h c (splitDigits_chars_subset ⟨ch, hch, hc⟩) hpy

theorem pyCompKey_isOk {k1 k2 : List Tok} (h1 : KeyShape k1) (h2 : KeyShape k2) :
    exceptOk (pyCompKey k1 k2) = true := by
  induction h1 generalizing k2 with
  | last s =>
    cases h2 with
    | last s2 =>
      simp only [pyCompKey, pyCompTok]
      cases cmpCharList s s2 <;> rfl
    | cons s2 n2 rest2 hr2 =>
      simp only [pyCompKey, pyCompTok]
      cases cmpCharList s s2 <;> rfl
  | cons s n rest hr ih =>
    cases h2 with
    | last s2 =>
      simp only [pyCompKey, pyCompTok]
      cases cmpCharList s s2 <;> rfl
    | cons s2 n2 rest2 hr2 =>
      simp only [pyCompKey, pyCompTok]
      cases cmpCharList s s2
      · rfl
      · cases hn : cmpNat n n2
        · rfl
        · exact ih hr2
        · rfl
      · rfl

theorem natCompare_isOk {a b : List Char} (ha : noExoticDigits a) (hb : noExoticDigits b) :
    exceptOk (natCompare a b) = true :=
  pyCompKey_isOk (keyShape_alphanum_key ha) (keyShape_alphanum_key hb)

/-! Decomposition of the key of a string of the form text ++ digits ++ rest. -/

/-- The string is empty or does not start with an ASCII digit, so a digit run
ending right before it is maximal. -/
def headNonDigit : List Char → Bool
  | [] => true
  | c :: _ => !(isAsciiDigit c)


theorem splitDigits_cons (c : Char) (rest : List Char) :
    splitDigits (c :: rest) =
      if isAsciiDigit c then consDigit c (splitDigits rest)
      else consText c (splitDigits rest) := rfl

theorem consDigit_splitDigits_headNonDigit (c : Char) {s : List Char}
    (hs : headNonDigit s = true) :
    consDigit c (splitDigits s) = [] :: [c] :: splitDigits s := by
  cases s with
  | nil => rfl
  | cons a s2 =>
    have ha : isAsciiDigit a = false := by
      have h2 : (!isAsciiDigit a) = true := hs
      simpa using h2
    rw [splitDigits_cons, ha]
    simp only [Bool.false_eq_true, if_false]
    rcases splitDigits s2 with _ | ⟨ch, tl⟩
    · rfl
    · simp only [consText]
      rw [consDigit_text_head]

theorem splitDigits_digits_append {d s : List Char} (hd : d ≠ [])
    (hd2 : ∀ c ∈ d, isAsciiDigit c = true) (hs : headNonDigit s = true) :
    splitDigits (d ++ s) = [] :: d :: splitDigits s := by
  induction d with
  | nil => exact absurd rfl hd
  | cons c d2 ih =>
    have hc : isAsciiDigit c = true := hd2 c (List.mem_cons_self c d2)
    cases d2 with
    | nil =>
      rw [List.cons_append, List.nil_append, splitDigits_cons, hc, if_pos rfl]
      exact consDigit_splitDigits_headNonDigit c hs
    | cons c2 d3 =>
      have ih2 := ih (by simp) (by
        intro x hx
        exact hd2 x (List.mem_cons_of_mem c hx))
      rw [List.cons_append, splitDigits_cons, hc, if_pos rfl, ih2, consDigit_merge]

theorem splitDigits_text_append {t d s : List Char}
    (ht : ∀ c ∈ t, isAsciiDigit c = false) (hd : d ≠ [])
    (hd2 : ∀ c ∈ d, isAsciiDigit c = true) (hs : headNonDigit s = true) :
    splitDigits (t ++ d ++ s) = t :: d :: splitDigits s := by
  induction t with
  | nil =>
    simp only [List.nil_append]
    exact splitDigits_digits_append hd hd2 hs
  | cons c t2 ih =>
    have hc : isAsciiDigit c = false := ht c (List.mem_cons_self c t2)
    have ih2 := ih (by
      intro x hx
      exact ht x (List.mem_cons_of_mem c hx))
    rw [List.cons_append, List.cons_append, splitDigits_cons, hc]
    simp only [Bool.false_eq_true, if_false]
    rw [ih2]
    rfl

theorem alphanum_key_decomp {t d s : List Char}
    (ht : ∀ c ∈ t, pyIsDigitChar c = false) (hd : d ≠ [])
    (hd2 : ∀ c ∈ d, isAsciiDigit c = true) (hs : headNonDigit s = true) :
    alphanum_key (t ++ d ++ s) =
      .str (t.map pyLowerChar) :: .num (pyIntVal d) :: (splitDigits s).map convert := by
  have ht2 : ∀ c ∈ t, isAsciiDigit c = false := by
    intro c hc
    rcases hb : isAsciiDigit c with _ | _
    · rfl
    · have h2 := isAsciiDigit_pyIsDigitChar hb
      rw [ht c hc] at h2
      cases h2
  unfold alphanum_key
  rw [splitDigits_text_append ht2 hd hd2 hs]
  simp only [List.map_cons]
  rw [convert_text ht2 (by
    intro c hc hpy
    rw [ht c hc] at hpy
    cases hpy), convert_digits hd hd2]

/-- Index formulation of the key shape: the key is nonempty, of odd length
(hence its last position is even and holds a str token), and holds a str
token exactly at the even positions. -/
def keyWellShaped (k : List Tok) : Prop :=
  k ≠ [] ∧ k.length % 2 = 1 ∧
    ∀ i, (h : i < k.length) → (k.get ⟨i, h⟩).isStr = decide (i % 2 = 0)

instance (k : List Tok) : Decidable (keyWellShaped k) := by
  unfold keyWellShaped
  infer_instance

theorem keyWellShaped_of_shape {k : List Tok} (h : KeyShape k) : keyWellShaped k := by
  induction h with
  | last s =>
    refine ⟨by simp, by simp, ?_⟩
    intro i h
    simp only [List.length_cons, List.length_nil] at h
    have hi : i = 0 := by omega
    subst hi
    rfl
  | cons s n rest hr ih =>
    obtain ⟨hne, hl, hi⟩ := ih
    refine ⟨by simp, ?_, ?_⟩
    · simp only [List.length_cons]
      omega
    · intro i h
      rcases i with _ | _ | j
      · rfl
      · rfl
      · have hj : j < rest.length := by
          simp only [List.length_cons] at h
          omega
        have hget : (Tok.str s :: Tok.num n :: rest).get ⟨j + 1 + 1, h⟩ =
            rest.get ⟨j, hj⟩ := rfl
        rw [hget, hi j hj]
        have hmod : (j + 1 + 1) % 2 = j % 2 := by omega
        rw [hmod]

/-! Permutation facts about the stable insertion sort. -/

theorem insertFrame_perm (a : List Char) (l : List (List Char)) :
    (insertFrame a l).Perm (a :: l) := by
  induction l with
  | nil => exact List.Perm.refl _
  | cons b bs ih =>
    simp only [insertFrame]
    by_cases h : natLt b a = true
    · rw [if_pos h]
      exact (ih.cons b).trans (List.Perm.swap a b bs)
    · rw [if_neg h]

theorem insertionSortNat_perm (l : List (List Char)) : (insertionSortNat l).Perm l := by
  induction l with
  | nil => exact List.Perm.refl _
  | cons a rest ih =>
    simp only [insertionSortNat]
    exact (insertFrame_perm a (insertionSortNat rest)).trans (ih.cons a)

theorem natural_sort_pair {x y : List Char} (h : natCompare x y = .ok .lt) :
    natural_sort [y, x] = .ok [x, y] := by
  have hxy : exceptOk (natCompare x y) = true := by rw [h]; rfl
  have hyx : natCompare y x = .ok .gt := by
    rw [natCompare, pyCompKey_swap, ← natCompare, h]
    rfl
  have hcomp : allComparable [y, x] = true := by
    have h1 : natCompare y y = .ok .eq := pyCompKey_self _
    have h2 : natCompare x x = .ok .eq := pyCompKey_self _
    unfold allComparable
    simp only [List.all_cons, List.all_nil, Bool.and_true]
    rw [h1, hyx, h, h2]
    rfl
  have hlt : natLt x y = true := by
    unfold natLt
    rw [h]
  unfold natural_sort
  rw [hcomp, if_pos rfl]
  simp only [insertionSortNat, insertFrame, hlt, if_true]

/-! Facts about the .mp4 replacement. -/

theorem stripMp4Aux_congr (f1 : Nat) : ∀ (l : List Char) (f2 : Nat),
    l.length ≤ f1 → l.length ≤ f2 → stripMp4Aux f1 l = stripMp4Aux f2 l := by
  induction f1 with
  | zero =>
    intro l f2 h1 h2
    have hl : l = [] := List.length_eq_zero.mp (Nat.le_zero.mp h1)
    subst hl
    cases f2 <;> rfl
  | succ f ih =>
    intro l f2 h1 h2
    cases l with
    | nil => cases f2 <;> rfl
    | cons c rest =>
      cases f2 with
      | zero => simp at h2
      | succ f2b =>
        simp only [stripMp4Aux]
        simp only [List.length_cons] at h1 h2
        have hdl := List.length_drop 3 rest
        by_cases hp : mp4.isPrefixOf (c :: rest) = true
        · rw [if_pos hp, if_pos hp]
          exact ih (rest.drop 3) f2b (by omega) (by omega)
        · rw [if_neg hp, if_neg hp]
          rw [ih rest f2b (by omega) (by omega)]

theorem stripMp4_cons_nomatch {c : Char} {rest : List Char}
    (h : mp4.isPrefixOf (c :: rest) = false) : stripMp4 (c :: rest) = c :: stripMp4 rest := by
  unfold stripMp4
  simp only [List.length_cons, stripMp4Aux]
  rw [if_neg (by rw [h]; simp)]

theorem stripMp4_mp4_append (t : List Char) : stripMp4 (mp4 ++ t) = stripMp4 t := by
  have hpre : mp4.isPrefixOf ('.' :: 'm' :: 'p' :: '4' :: t) = true := by
    rw [List.isPrefixOf_iff_prefix]
    exact List.prefix_append mp4 t
  show (if mp4.isPrefixOf ('.' :: 'm' :: 'p' :: '4' :: t) then
      stripMp4Aux ('m' :: 'p' :: '4' :: t).length (List.drop 3 ('m' :: 'p' :: '4' :: t))
    else
      '.' :: stripMp4Aux ('m' :: 'p' :: '4' :: t).length ('m' :: 'p' :: '4' :: t)) =
    stripMp4 t
  rw [if_pos hpre]
  exact stripMp4Aux_congr ('m' :: 'p' :: '4' :: t).length (List.drop 3 ('m' :: 'p' :: '4' :: t))
    t.length (by simp; omega) (by simp)

theorem stripMp4_no_occurrence (m : List Char)
    (h : ∀ i, i < m.length + 1 → mp4.isPrefixOf (m.drop i) = false) : stripMp4 m = m := by
  induction m with
  | nil => rfl
  | cons c rest ih =>
    have h0 : mp4.isPrefixOf (c :: rest) = false := by
      have := h 0 (by omega)
      simpa using this
    rw [stripMp4_cons_nomatch h0]
    rw [ih ?_]
    intro i hi
    have := h (i + 1) (by simp only [List.length_cons]; omega)
    rw [List.drop_succ_cons] at this
    exact this

theorem stripMp4_trailing (m : List Char)
    (h : ∀ i, i < m.length → mp4.isPrefixOf ((m ++ mp4).drop i) = false) :
    stripMp4 (m ++ mp4) = m := by
  induction m with
  | nil =>
    have := stripMp4_mp4_append []
    simpa using this
  | cons c rest ih =>
    have h0 : mp4.isPrefixOf (c :: (rest ++ mp4)) = false := by
      have := h 0 (by simp)
      simpa using this
    rw [List.cons_append, stripMp4_cons_nomatch h0]
    rw [ih ?_]
    intro i hi
    have := h (i + 1) (by simp only [List.length_cons]; omega)
    rw [List.cons_append, List.drop_succ_cons] at this
    exact this

/-! Facts about the modelled filesystem and the recursive loop. -/

theorem fileExists_removeFile (p : String) (fs : FS) :
    fileExists p (removeFile p fs) = false := by
  unfold fileExists removeFile
  rw [Bool.eq_false_iff]
  intro hc
  rw [List.any_eq_true] at hc
  obtain ⟨e, he, hep⟩ := hc
  have hf := List.of_mem_filter he
  rw [beq_iff_eq] at hep
  rw [bne_iff_ne] at hf
  exact hf hep

theorem processFolders_fst (env : Env) (fp op : String) (fps : Int) (res : String) :
    ∀ (l : List String) (fs : FS),
      ((processFolders env fp op fps res l fs).2).map Prod.fst = l := by
  intro l
  induction l with
  | nil => intro fs; rfl
  | cons f rest ih =>
    intro fs
    simp only [processFolders, List.map_cons]
    rw [ih]

theorem ordSwapE_eq_lt {e : Except Unit Ordering} : ordSwapE e = .ok .lt ↔ e = .ok .gt := by
  cases e with
  | error u => simp [ordSwapE]
  | ok o => cases o <;> simp [ordSwapE, Ordering.swap]

theorem ordSwapE_eq_eq {e : Except Unit Ordering} : ordSwapE e = .ok .eq ↔ e = .ok .eq := by
  cases e with
  | error u => simp [ordSwapE]
  | ok o => cases o <;> simp [ordSwapE, Ordering.swap]

/-!
Claim theorems.
-/

/-- C1: for filenames of the form text-prefix ++ digit-run ++ shared-suffix,
the comparison induced by alphanum_key orders them by the integer value of the
digit run, whatever the digit count or zero padding; in particular a
two-element sort puts the smaller run first, and the sorted output of
[frame10.png, frame22.png, frame9.png] is frame9.png, frame10.png,
frame22.png. -/
theorem natural_sort_orders_numeric_runs (t d1 d2 s : List Char)
    (ht : ∀ c ∈ t, pyIsDigitChar c = false)
    (hd1 : d1 ≠ []) (hd1d : ∀ c ∈ d1, isAsciiDigit c = true)
    (hd2 : d2 ≠ []) (hd2d : ∀ c ∈ d2, isAsciiDigit c = true)
    (hs : headNonDigit s = true)
    (hval : pyIntVal d1 < pyIntVal d2) :
    natCompare (t ++ d1 ++ s) (t ++ d2 ++ s) = .ok .lt ∧
      natural_sort [t ++ d2 ++ s, t ++ d1 ++ s] = .ok [t ++ d1 ++ s, t ++ d2 ++ s] ∧
      natural_sort ["frame10.png".toList, "frame22.png".toList, "frame9.png".toList] =
        .ok ["frame9.png".toList, "frame10.png".toList, "frame22.png".toList] := by
  have hcmp : natCompare (t ++ d1 ++ s) (t ++ d2 ++ s) = .ok .lt := by
    unfold natCompare
    rw [alphanum_key_decomp ht hd1 hd1d hs, alphanum_key_decomp ht hd2 hd2d hs]
    have h1 : pyCompTok (.str (t.map pyLowerChar)) (.str (t.map pyLowerChar)) = .ok .eq :=
      pyCompTok_self _
    have h2 : pyCompTok (.num (pyIntVal d1)) (.num (pyIntVal d2)) = .ok .lt := by
      simp only [pyCompTok]
      rw [(cmpNat_lt_iff _ _).mpr hval]
    simp only [pyCompKey, h1, h2]
  exact ⟨hcmp, natural_sort_pair hcmp, by decide⟩

/-- C1 witness at frame9.png and frame10.png. -/
theorem natural_sort_orders_numeric_runs_witness :
    natCompare "frame9.png".toList "frame10.png".toList = .ok .lt ∧
      natural_sort ["frame10.png".toList, "frame9.png".toList] =
        .ok ["frame9.png".toList, "frame10.png".toList] := by
  have h := natural_sort_orders_numeric_runs "frame".toList "9".toList "10".toList ".png".toList
    (by decide) (by decide) (by decide) (by decide) (by decide) (by decide) (by decide)
  exact ⟨h.1, h.2.1⟩

/-- C8: for a text prefix and digit runs with the same integer value followed
by the same suffix, the keys carry the same numeric token at position 1, so
leading zeros do not affect the comparison of the digit run. -/
theorem leading_zero_token_equivalence (t d1 d2 s : List Char)
    (ht : ∀ c ∈ t, pyIsDigitChar c = false)
    (hd1 : d1 ≠ []) (hd1d : ∀ c ∈ d1, isAsciiDigit c = true)
    (hd2 : d2 ≠ []) (hd2d : ∀ c ∈ d2, isAsciiDigit c = true)
    (hs : headNonDigit s = true) :
    (alphanum_key (t ++ d1 ++ s))[1]? = some (.num (pyIntVal d1)) ∧
      (pyIntVal d1 = pyIntVal d2 →
        (alphanum_key (t ++ d1 ++ s))[1]? = (alphanum_key (t ++ d2 ++ s))[1]?) := by
  constructor
  · rw [alphanum_key_decomp ht hd1 hd1d hs]
    simp
  · intro hv
    rw [alphanum_key_decomp ht hd1 hd1d hs, alphanum_key_decomp ht hd2 hd2d hs, hv]

/-- C8 witness: key("f007.png") and key("f7.png") hold the same numeric token
at position 1. -/
theorem leading_zero_token_equivalence_witness :
    (alphanum_key "f007.png".toList)[1]? = some (Tok.num 7) ∧
      (alphanum_key "f007.png".toList)[1]? = (alphanum_key "f7.png".toList)[1]? := by
  have h := leading_zero_token_equivalence "f".toList "007".toList "7".toList ".png".toList
    (by decide) (by decide) (by decide) (by decide) (by decide) (by decide)
  exact ⟨h.1, h.2 (by decide)⟩

/-- C2 counterexample: the comparison induced by alphanum_key is not a strict
total order on all strings, and it can raise: the distinct strings "A" and
"a" compare equal (so the order is not antisymmetric on strings), and
comparing the Arabic-Indic digit string with "a" is an int-vs-str TypeError. -/
theorem natCompare_not_strict_total_order_cex :
    natCompare "A".toList "a".toList = .ok .eq ∧ "A".toList ≠ "a".toList ∧
      natCompare ['٣'] "a".toList = .error () :=
  ⟨by decide, by decide, by decide⟩

/-- C2 amended: on strings without non-ASCII digit characters the comparison
never raises, and in general it is reflexively equal, dual (lt against gt),
transitive and eq-congruent: a total preorder rather than a strict total
order, distinct strings being allowed to compare equal. -/
theorem natCompare_total_preorder (a b c : List Char)
    (ha : noExoticDigits a) (hb : noExoticDigits b) :
    exceptOk (natCompare a b) = true ∧
      natCompare a a = .ok .eq ∧
      (natCompare a b = .ok .lt ↔ natCompare b a = .ok .gt) ∧
      (natCompare a b = .ok .eq ↔ natCompare b a = .ok .eq) ∧
      (natCompare a b = .ok .lt → natCompare b c = .ok .lt → natCompare a c = .ok .lt) ∧
      (natCompare a b = .ok .eq → natCompare b c = natCompare a c) := by
  refine ⟨natCompare_isOk ha hb, pyCompKey_self _, ?_, ?_, ?_, ?_⟩
  · rw [show natCompare a b = ordSwapE (natCompare b a) from pyCompKey_swap _ _]
    exact ordSwapE_eq_lt
  · rw [show natCompare a b = ordSwapE (natCompare b a) from pyCompKey_swap _ _]
    exact ordSwapE_eq_eq
  · exact fun h1 h2 => pyCompKey_trans_lt h1 h2
  · exact fun h => pyCompKey_congr_left h _

/-- C2 witness at frame9.png, frame10.png, x. -/
theorem natCompare_total_preorder_witness :
    exceptOk (natCompare "frame9.png".toList "frame10.png".toList) = true ∧
      natCompare "frame9.png".toList "frame9.png".toList = .ok .eq ∧
      (natCompare "frame9.png".toList "frame10.png".toList = .ok .lt ↔
        natCompare "frame10.png".toList "frame9.png".toList = .ok .gt) ∧
      (natCompare "frame9.png".toList "frame10.png".toList = .ok .eq ↔
        natCompare "frame10.png".toList "frame9.png".toList = .ok .eq) ∧
      (natCompare "frame9.png".toList "frame10.png".toList = .ok .lt →
        natCompare "frame10.png".toList "x".toList = .ok .lt →
        natCompare "frame9.png".toList "x".toList = .ok .lt) ∧
      (natCompare "frame9.png".toList "frame10.png".toList = .ok .eq →
        natCompare "frame10.png".toList "x".toList =
          natCompare "frame9.png".toList "x".toList) :=
  natCompare_total_preorder "frame9.png".toList "frame10.png".toList "x".toList
    (by decide) (by decide)

/-- C9 counterexample: the key of the one-character Arabic-Indic digit string
is the single numeric token int 3, so a key can start with a non-str token
and the claimed alternation fails for this input. -/
theorem key_shape_unicode_digit_cex :
    alphanum_key ['٣'] = [Tok.num 3] ∧ ¬ keyWellShaped (alphanum_key ['٣']) :=
  ⟨by decide, by decide⟩

/-- C9 amended: for strings whose digit characters are all ASCII, the key is
nonempty, of odd length, with str tokens exactly at even positions (hence it
starts and ends with a str token), and consequently comparing two such keys
never compares an int against a str. -/
theorem key_shape_ascii_alternation (l : List Char) (h : noExoticDigits l) :
    keyWellShaped (alphanum_key l) ∧
      ∀ l2, noExoticDigits l2 → exceptOk (natCompare l l2) = true :=
  ⟨keyWellShaped_of_shape (keyShape_alphanum_key h),
    fun _ h2 => natCompare_isOk h h2⟩

/-- C9 witness at frame10.png and a1b. -/
theorem key_shape_ascii_alternation_witness :
    keyWellShaped (alphanum_key "frame10.png".toList) ∧
      exceptOk (natCompare "frame10.png".toList "a1b".toList) = true :=
  ⟨(key_shape_ascii_alternation "frame10.png".toList (by decide)).1,
    (key_shape_ascii_alternation "frame10.png".toList (by decide)).2 "a1b".toList (by decide)⟩

/-- C10 counterexample: on the two-element list of the Arabic-Indic digit
string and "a", any sort must compare the unique pair of keys, int 3 against
str "a", so natural_sort raises TypeError and returns no permutation. -/
theorem natural_sort_unicode_typeerror_cex :
    natural_sort [['٣'], "a".toList] = .error () := by decide

/-- C10 amended: whenever every pair of keys of the input list is comparable
(in particular for ASCII filenames), natural_sort returns a permutation of
the input list; the input itself is never mutated, sorted builds a new list. -/
theorem natural_sort_perm_of_comparable (l : List (List Char))
    (h : allComparable l = true) :
    ∃ out, natural_sort l = .ok out ∧ out.Perm l :=
  ⟨insertionSortNat l, by unfold natural_sort; rw [if_pos h], insertionSortNat_perm l⟩

/-- C10 witness on a list with a repeated element. -/
theorem natural_sort_perm_of_comparable_witness :
    ∃ out,
      natural_sort ["b.png".toList, "a10.png".toList, "a9.png".toList, "a10.png".toList] =
        .ok out ∧
      out.Perm ["b.png".toList, "a10.png".toList, "a9.png".toList, "a10.png".toList] :=
  natural_sort_perm_of_comparable _ (by decide)

theorem create_video_recursive_trace (env : Env) (fp op : String) (nm : Option String)
    (fps : Int) (res : String) (fs : FS) :
    ((create_video_from_frames env fp op nm fps res true fs).folderTrace).map Prod.fst =
      (env.listDir fp).filter (fun f => env.isDir (pathJoin fp f)) := by
  simp only [create_video_from_frames, if_true]
  by_cases h : ((env.listDir fp).filter (fun f => env.isDir (pathJoin fp f))).isEmpty = true
  · rw [if_pos h]
    have h2 := List.isEmpty_iff.mp h
    rw [h2]
    rfl
  · rw [if_neg h]
    exact processFolders_fst env fp op fps res _ fs

theorem create_video_recursive_ok (env : Env) (fp op : String) (nm : Option String)
    (fps : Int) (res : String) (fs : FS)
    (h : (env.listDir fp).filter (fun f => env.isDir (pathJoin fp f)) ≠ []) :
    (create_video_from_frames env fp op nm fps res true fs).outcome = .ok () := by
  have hne : ¬ ((env.listDir fp).filter (fun f => env.isDir (pathJoin fp f))).isEmpty = true := by
    rw [List.isEmpty_iff]
    exact h
  simp only [create_video_from_frames, if_true]
  rw [if_neg hne]

/-- C3 counterexample: the recursive loop processes subdirectories in the
order os.listdir returns them, so two environments with the same three shot
subdirectories but different listing orders are processed in those two
different orders, and neither is the claimed natural-sort-independent order
shotA, shot2, shot10. -/
theorem recursive_order_cex :
    ((create_video_from_frames envShots1 "root" "out" none 20 "256x256" true
          []).folderTrace).map Prod.fst = ["shot10", "shot2", "shotA"] ∧
      ((create_video_from_frames envShots2 "root" "out" none 20 "256x256" true
          []).folderTrace).map Prod.fst = ["shotA", "shot10", "shot2"] ∧
      (["shot10", "shot2", "shotA"] : List String) ≠ ["shotA", "shot2", "shot10"] ∧
      (["shot10", "shot2", "shotA"] : List String) ≠ ["shot2", "shot10", "shotA"] :=
  ⟨by decide, by decide, by decide, by decide⟩

/-- C3 amended: in recursive mode the subdirectories are processed exactly in
the order the filesystem listing returns them, filtered to directories; no
natural sort is applied to that order. -/
theorem recursive_order_is_listing_order (env : Env) (fp op : String) (nm : Option String)
    (fps : Int) (res : String) (fs : FS) :
    ((create_video_from_frames env fp op nm fps res true fs).folderTrace).map Prod.fst =
      (env.listDir fp).filter (fun f => env.isDir (pathJoin fp f)) :=
  create_video_recursive_trace env fp op nm fps res fs

/-- C7: in recursive mode with at least one subdirectory, every subdirectory
of the listing is processed in order whatever each call's outcome is, the
per-directory error is caught at the loop boundary and recorded, and the whole
call returns normally. -/
theorem recursive_failures_isolated (env : Env) (fp op : String) (nm : Option String)
    (fps : Int) (res : String) (fs : FS)
    (h : (env.listDir fp).filter (fun f => env.isDir (pathJoin fp f)) ≠ []) :
    (create_video_from_frames env fp op nm fps res true fs).outcome = .ok () ∧
      ((create_video_from_frames env fp op nm fps res true fs).folderTrace).map Prod.fst =
        (env.listDir fp).filter (fun f => env.isDir (pathJoin fp f)) :=
  ⟨create_video_recursive_ok env fp op nm fps res fs h,
    create_video_recursive_trace env fp op nm fps res fs⟩

/-- C7 witness: the bad subdirectory raises (its subprocess fails to start),
the error shows up in the trace, the good subdirectory is still processed and
the batch returns normally. -/
theorem recursive_failures_isolated_witness :
    (create_video_from_frames envMixed "root" "out" none 20 "256x256" true []).outcome =
        .ok () ∧
      ((create_video_from_frames envMixed "root" "out" none 20 "256x256" true
          []).folderTrace).map Prod.fst =
        (envMixed.listDir "root").filter (fun f => envMixed.isDir (pathJoin "root" f)) ∧
      (create_video_from_frames envMixed "root" "out" none 20 "256x256" true []).folderTrace =
        [("bad", .error (PyErr.exc "boom")), ("good", .ok ())] :=
  ⟨(recursive_failures_isolated envMixed "root" "out" none 20 "256x256" [] (by decide)).1,
    (recursive_failures_isolated envMixed "root" "out" none 20 "256x256" [] (by decide)).2,
    by decide⟩

/-- C4 counterexample: when subprocess.run itself raises, the exception
propagates out of process_single_directory before os.remove runs, and the
transient frame-list file is left behind. -/
theorem temp_file_leak_on_exception_cex :
    (process_single_directory envFfmpegRaise "root" "out" (some "v") 20 "256x256" []).2 =
        .error (PyErr.exc "FileNotFoundError: ffmpeg") ∧
      fileExists "out/v_frames.txt"
        (process_single_directory envFfmpegRaise "root" "out" (some "v") 20 "256x256"
          []).1 = true :=
  ⟨by decide, by decide⟩

/-- C4 amended: the transient frame-list file is removed whenever the encoder
subprocess completes, with a success or a failure exit status alike (and it is
never created on the earlier exits); only a raised exception during the
subprocess invocation leaks it. -/
theorem temp_file_removed_when_subprocess_completes (env : Env) (fp op : String)
    (nm : Option String) (fps : Int) (res : String) (fs : FS)
    (h0 : fileExists (tempListPath op fp nm) fs = false)
    (hrun : ∀ c, exceptOk (env.ffmpeg c) = true) :
    fileExists (tempListPath op fp nm)
      (process_single_directory env fp op nm fps res fs).1 = false := by
  simp only [process_single_directory]
  by_cases he : ((env.listDir fp).filter isImageFile).isEmpty = true
  · rw [if_pos he]
    exact h0
  · rw [if_neg he]
    rcases hsort : natural_sort (((env.listDir fp).filter isImageFile).map String.toList) with
      e | sorted
    · exact h0
    · dsimp only
      by_cases hf : fps = 0
      · rw [if_pos hf]
        exact h0
      · rw [if_neg hf]
        rcases hrunc : env.ffmpeg
            ⟨pathJoin op (resolveBaseName fp nm ++ "_frames.txt"), res, fps,
              pathJoin op (resolveBaseName fp nm ++ ".mp4")⟩ with msg | rc
        · have hok := hrun ⟨pathJoin op (resolveBaseName fp nm ++ "_frames.txt"), res, fps,
            pathJoin op (resolveBaseName fp nm ++ ".mp4")⟩
          rw [hrunc] at hok
          cases hok
        · exact fileExists_removeFile _ _

/-- C4 witness: a completing encoder (here with exit status 0) leaves no
transient frame-list file behind. -/
theorem temp_file_removed_when_subprocess_completes_witness :
    fileExists (tempListPath "out" "root" (some "v"))
      (process_single_directory envFramesOk "root" "out" (some "v") 20 "256x256" []).1 =
      false :=
  temp_file_removed_when_subprocess_completes envFramesOk "root" "out" (some "v") 20 "256x256"
    [] (by decide) (fun _ => rfl)

/-- C5 counterexample: fps = 0 is not rejected before directory processing:
with frames present the invocation fails with ZeroDivisionError raised inside
per-directory processing (the duration computation 1.0/fps is reached), and
with no matching frames the same fps = 0 invocation completes silently, so no
upfront configuration check exists. -/
theorem fps_zero_not_rejected_cex :
    (create_video_from_frames envFramesOk "root" "out" none 0 "256x256" false []).outcome =
        .error PyErr.zeroDivision ∧
      (create_video_from_frames envEmptyDir "in" "out" none 0 "256x256" false []).outcome =
        .ok () :=
  ⟨by decide, by decide⟩

/-- C5 amended: fps is never validated; whenever the directory holds image
files (with comparable keys, so the sort returns) a call with fps = 0 runs the
listing, the sort and the name resolution and then raises ZeroDivisionError at
the duration computation, before the frame-list file is written. -/
theorem fps_zero_reaches_duration_division (env : Env) (fp op : String)
    (nm : Option String) (res : String) (fs : FS)
    (hne : (env.listDir fp).filter isImageFile ≠ [])
    (hcmp : allComparable (((env.listDir fp).filter isImageFile).map String.toList) = true) :
    process_single_directory env fp op nm 0 res fs = (fs, .error PyErr.zeroDivision) := by
  have he : ¬ ((env.listDir fp).filter isImageFile).isEmpty = true := by
    rw [List.isEmpty_iff]
    exact hne
  have hsort : natural_sort (((env.listDir fp).filter isImageFile).map String.toList) =
      .ok (insertionSortNat (((env.listDir fp).filter isImageFile).map String.toList)) := by
    unfold natural_sort
    rw [if_pos hcmp]
  simp only [process_single_directory]
  rw [if_neg he, hsort]
  rfl

/-- C5 witness: a directory of three frames with fps = 0 errors with
ZeroDivisionError and writes nothing. -/
theorem fps_zero_reaches_duration_division_witness :
    process_single_directory envFramesOk "root" "out" none 0 "256x256" [] =
      ([], .error PyErr.zeroDivision) :=
  fps_zero_reaches_duration_division envFramesOk "root" "out" none "256x256" []
    (by decide) (by decide)

/-- C6 counterexample: the base-name cleanup is str.replace of every ".mp4"
occurrence, not the removal of one trailing suffix: the name my.mp4.backup,
whose ".mp4" is not a trailing suffix, is rewritten to my.backup instead of
being left intact. -/
theorem mp4_replace_all_cex :
    resolveBaseName "d" (some "my.mp4.backup") = "my.backup" ∧
      ("my.backup" : String) ≠ "my.mp4.backup" :=
  ⟨by decide, by decide⟩

/-- C6 amended: the cleanup removes every occurrence of ".mp4" anywhere in
the chosen name; a name without any occurrence is kept unchanged, a name
whose only occurrence is the trailing suffix loses exactly that suffix, and
in particular an explicit name clip.mp4 yields the output path out/clip.mp4
rather than a doubled extension. -/
theorem mp4_strip_replace_all_semantics :
    (∀ m : List Char,
        (∀ i, i < m.length + 1 → mp4.isPrefixOf (m.drop i) = false) → stripMp4 m = m) ∧
      (∀ m : List Char,
        (∀ i, i < m.length → mp4.isPrefixOf ((m ++ mp4).drop i) = false) →
          stripMp4 (m ++ mp4) = m) ∧
      resolveBaseName "frames" (some "clip.mp4") = "clip" ∧
      pathJoin "out" (resolveBaseName "frames" (some "clip.mp4") ++ ".mp4") =
        "out/clip.mp4" :=
  ⟨stripMp4_no_occurrence, stripMp4_trailing, by decide, by decide⟩

/-- C6 witness: a name without ".mp4" is unchanged and clip.mp4 loses exactly
its trailing suffix. -/
theorem mp4_strip_replace_all_semantics_witness :
    stripMp4 "video".toList = "video".toList ∧
      stripMp4 ("clip".toList ++ mp4) = "clip".toList :=
  ⟨mp4_strip_replace_all_semantics.1 "video".toList (by decide),
    mp4_strip_replace_all_semantics.2.1 "clip".toList (by decide)⟩
